import Mathlib

/-
Verification of the documentation-gathering pipeline of the developer-tooling
monorepo (src/tooling/bootstrap/gather_docs.py).

The pipeline is embedded shallowly over lists of characters:

  * extract_doc_comment models DocGatherer.extract_doc_comment applied to the
    text content of one file: four delimiter patterns are tried in a fixed
    priority order with leftmost, shortest (non-greedy, dot-matches-newline)
    matching, and the matched text is then searched for an optional
    created-with mark of the shape: the words Created with, then lazy text up
    to an opening parenthesis, then lazy text up to a closing parenthesis,
    where the lazy parts may not cross a newline.
  * format_output models DocGatherer.format_output including the joining of
    the output fragments with single newline characters.
  * FSTree models a directory tree; forestEntries models Path.rglob over the
    scan root, yielding every descendant entry with its path relative to the
    root; gather_docs models DocGatherer.gather_docs with its extension
    filter.  A file whose read_text call raises is modelled by a RawEntry
    whose content field is none; the except branch of the source is modelled
    by processEntry returning none for it and by gatherWarnPaths recording
    its path (the source prints a warning line naming the file).
-/

namespace GatherDocs

abbrev Chars := List Char

/-- Whitespace as stripped by the Python str.strip method (ASCII range):
space, tab, newline, carriage return, vertical tab, form feed. -/
def isPySpace (c : Char) : Bool :=
  c == ' ' || c == '\t' || c == '\n' || c == '\r' || c == '\x0b' || c == '\x0c'

/-- Model of the Python str.strip method: remove leading and trailing
whitespace. -/
def pyStrip (s : Chars) : Chars :=
  ((s.dropWhile isPySpace).reverse.dropWhile isPySpace).reverse

/-- Index of the first occurrence of pat as a contiguous block inside s,
scanning left to right, as the re module does when anchoring a search. -/
def findFrom (pat : Chars) : Chars → Option Nat
  | [] => if pat.isEmpty then some 0 else none
  | c :: s =>
    if pat.isPrefixOf (c :: s) then some 0
    else (findFrom pat s).map (· + 1)

/-- The pattern pat occurs in s starting at index i. -/
abbrev occursAt (pat s : Chars) (i : Nat) : Prop :=
  pat.isPrefixOf (s.drop i) = true

/-- Model of re.search with a pattern of the form: opening delimiter, lazy
dot-matches-newline group, closing delimiter.  The regex engine returns the
leftmost match, and the lazy group makes the closing delimiter the earliest
one after the opening delimiter; the returned value is the captured group.
If the first occurrence of the opening delimiter has no closing delimiter
after it then no later occurrence has one either, so the search fails. -/
def matchDelim (o c s : Chars) : Option Chars :=
  (findFrom o s).bind (fun i =>
    (findFrom c (s.drop (i + o.length))).map (fun j => (s.drop (i + o.length)).take j))

/-- Single-quote character, written by ASCII code. -/
def sq : Char := Char.ofNat 39

/-- Triple double quote delimiter. -/
def dq3 : Chars := ['\"', '\"', '\"']

/-- Triple single quote delimiter. -/
def sq3 : Chars := [sq, sq, sq]

/-- The four delimiter pattern pairs of extract_doc_comment, in the priority
order of the source: Python style, C style, PowerShell style, alternative
Python style.  The fourth source pattern also skips leading whitespace
before its capture group; since the captured text is stripped afterwards,
modelling it with the plain delimiter pair yields the same stripped text. -/
def doc_patterns : List (Chars × Chars) :=
  [(dq3, dq3), ("/**".data, "*/".data), ("<#".data, "#>".data), (sq3, sq3)]

/-- Try the delimiter patterns in order; the first pattern that matches
anywhere in the text wins. -/
def tryPatterns : List (Chars × Chars) → Chars → Option Chars
  | [], _ => none
  | p :: ps, s =>
    match matchDelim p.1 p.2 s with
    | some g => some g
    | none => tryPatterns ps s

/-- Index of the first occurrence of a single character in a list. -/
def charIdx (t : Char) : Chars → Option Nat
  | [] => none
  | c :: s => if c = t then some 0 else (charIdx t s).map (· + 1)

/-- The literal before the first group of the created-with regex. -/
def cwLit : Chars := "Created with ".data

/-- Model of matching the two lazy groups of the created-with regex at a
fixed start position, s being the text right after the literal part.  The
dot of the re module does not cross a newline, so both groups live before
the first newline; the lazy groups select the first opening parenthesis and
then the first closing parenthesis after it. -/
def matchCreatedTail (s : Chars) : Option (Chars × Chars) :=
  (charIdx '(' (s.takeWhile (fun c => !(c == '\n')))).bind (fun p =>
    (charIdx ')' ((s.takeWhile (fun c => !(c == '\n'))).drop (p + 1))).map (fun q =>
      ((s.takeWhile (fun c => !(c == '\n'))).take p,
       ((s.takeWhile (fun c => !(c == '\n'))).drop (p + 1)).take q)))

/-- Model of re.search for the created-with regex: scan start positions left
to right; at each position the literal must match and the tail must
complete, otherwise scanning continues one position further. -/
def searchCreated : Chars → Option (Chars × Chars)
  | [] => none
  | c :: rest =>
    if cwLit.isPrefixOf (c :: rest) then
      match matchCreatedTail (List.drop cwLit.length (c :: rest)) with
      | some r => some r
      | none => searchCreated rest
    else searchCreated rest

/-- The record produced per matched file, mirroring the FileDoc dataclass of
the source, with strings as character lists. -/
structure FileDoc where
  path : Chars
  description : Chars
  created_date : Option Chars
  created_with : Option Chars
deriving DecidableEq, Repr

/-- Model of DocGatherer.extract_doc_comment applied to the decoded text of
one file: try the four delimiter patterns in priority order; on a match,
strip the captured text, search it for the created-with mark, and build the
FileDoc.  The path argument stands for the path string stored in the record.
The read step and its exception handling are modelled at the call site in
processEntry, since they concern the file system rather than the text. -/
def extract_doc_comment (path content : Chars) : Option FileDoc :=
  (tryPatterns doc_patterns content).map (fun g =>
    match searchCreated (pyStrip g) with
    | some r =>
      { path := path, description := pyStrip g,
        created_date := some (pyStrip r.2),
        created_with := some (pyStrip r.1) }
    | none =>
      { path := path, description := pyStrip g,
        created_date := none, created_with := none })

/-- The static project description assigned in the constructor of
DocGatherer, copied verbatim from the source. -/
def project_context : Chars :=
  ("\nDeveloper Tools Monorepo Context:\n--------------------------------\nThis is a monorepo designed for rapid prototyping and exploration of various development tools\nand utilities. The project aims to provide a consistent development environment across\nWindows, OSX, and Linux platforms, with initial focus on Python development, cloud tools (gcloud),\nand version control (git).\n\nKey Features:\n- Cross-platform compatibility\n- Idempotent installations\n- Version management\n- Automated environment setup\n- Self-documenting codebase\n\nInitial implementation includes environment bootstrapping with cross-platform support\nand version-checked installations of core development tools.\n\nAll generated scripts should follow the pattern that is already established,\nso that our automated documentation gatherer continues to be useful for\nsending context to LLMs for further development.\n").data

/-- The section header literal of format_output. -/
def sectionHdr : Chars := "\nFile Documentation:\n-------------------".data

/-- A single newline, the separator of the final string join. -/
def nlc : Chars := ['\n']

/-- Truthiness of an optional string in Python: None and the empty string
are falsy, any non-empty string is truthy. -/
def optTruthy : Option Chars → Bool
  | some (_ :: _) => true
  | _ => false

/-- The list fragments appended to the output list for one record in
format_output (path line, dash underline, description, conditional
created-with line, and a closing newline fragment).  The guard mirrors the
Python truthiness test on both optional fields. -/
def docItems (d : FileDoc) : List Chars :=
  ("\n".data ++ d.path) ::
  List.replicate d.path.length '-' ::
  d.description ::
  ((if optTruthy d.created_with && optTruthy d.created_date then
      ["\nCreated with ".data ++ d.created_with.getD [] ++ " (".data ++
        d.created_date.getD [] ++ ")".data]
    else []) ++ ["\n".data])

/-- Model of the join method of Python strings: concatenate the fragments,
placing the separator between consecutive fragments. -/
def joinSep (sep : Chars) : List Chars → Chars
  | [] => []
  | [x] => x
  | x :: y :: xs => x ++ sep ++ joinSep sep (y :: xs)

/-- Model of DocGatherer.format_output: the context block and the section
header, then the fragments of every record in sequence order, joined with
single newlines. -/
def format_output (docs : List FileDoc) : Chars :=
  joinSep nlc ([project_context, sectionHdr] ++ (docs.map docItems).flatten)

/-- One rglob result of the scan, with its path as a list of name
components relative to the scan root.  A file whose read_text call would
raise a decode or input error carries content none; directories carry
content none as well and are told apart by the isDir flag. -/
structure RawEntry where
  comps : List Chars
  isDir : Bool
  content : Option Chars
deriving DecidableEq, Repr

/-- A directory tree: the file system under the scan root.  A file node
carries the decoded text of the file, or none when reading it fails. -/
inductive FSTree where
  | file (name : Chars) (content : Option Chars) : FSTree
  | dir (name : Chars) (children : List FSTree) : FSTree

/-- Name of the root node of a tree. -/
def FSTree.name : FSTree → Chars
  | .file n _ => n
  | .dir n _ => n

/-- All entries of one tree node: the node itself and, for directories,
every entry of every child prefixed with the directory name.  This is the
recursive enumeration underlying Path.rglob. -/
def FSTree.entries : FSTree → List RawEntry
  | .file n c => [⟨[n], false, c⟩]
  | .dir n ch =>
    ⟨[n], true, none⟩ ::
      (ch.attach.map (fun x =>
        (FSTree.entries x.1).map (fun e => ⟨n :: e.comps, e.isDir, e.content⟩))).flatten
termination_by t => sizeOf t
decreasing_by
  simp only [FSTree.dir.sizeOf_spec]
  have := List.sizeOf_lt_of_mem x.2
  omega

/-- Model of root.rglob applied to the star pattern: every descendant entry
of every child of the scan root, in child order, with paths relative to the
root. -/
def forestEntries (ts : List FSTree) : List RawEntry :=
  (ts.map FSTree.entries).flatten

/-- Model of the suffix property of Python pathlib on one file name: the
part of the name from its last dot on, empty when the last dot is the first
character, absent, or the final character. -/
def nameSuffix (name : Chars) : Chars :=
  match charIdx '.' name.reverse with
  | none => []
  | some j =>
    let i := name.length - 1 - j
    if 0 < i ∧ i < name.length - 1 then name.drop i else []

/-- Suffix of the last path component. -/
def pathSuffix (comps : List Chars) : Chars :=
  nameSuffix (comps.getLastD [])

/-- The fixed extension allow list of gather_docs. -/
def pyExts : List Chars := [".py".data, ".sh".data, ".ps1".data]

/-- The per-entry test of the gather loop: the entry is a file and its
suffix is in the allow list. -/
def entryGuard (exts : List Chars) (e : RawEntry) : Bool :=
  !e.isDir && decide (pathSuffix e.comps ∈ exts)

/-- The Tree Walker stage: the rglob enumeration restricted to files whose
extension lies in the allow list. -/
def walkEntries (exts : List Chars) (ts : List FSTree) : List RawEntry :=
  (forestEntries ts).filter (entryGuard exts)

/-- The file paths yielded by the Walker. -/
def walkPaths (exts : List Chars) (ts : List FSTree) : List (List Chars) :=
  (walkEntries exts ts).map RawEntry.comps

/-- Path components joined with the path separator, as the str conversion
of a relative Path value produces. -/
def pathJoin (comps : List Chars) : Chars := joinSep "/".data comps

/-- Per-file step of the gather loop: read the content and extract; the
try-except of the source turns a failing read into no record. -/
def processEntry (e : RawEntry) : Option FileDoc :=
  match e.content with
  | some content => extract_doc_comment (pathJoin e.comps) content
  | none => none

/-- The gather loop over a fixed sequence of rglob results. -/
def gatherDocsFrom (es : List RawEntry) : List FileDoc :=
  (es.filter (entryGuard pyExts)).filterMap processEntry

/-- Model of DocGatherer.gather_docs: walk the tree, keep files with an
allowed extension, extract a record per file, skipping files without a
match and files whose read fails. -/
def gather_docs (ts : List FSTree) : List FileDoc :=
  gatherDocsFrom (forestEntries ts)

/-- Paths of the files whose read failed during the scan; the source prints
one warning line per such file inside the except branch. -/
def gatherWarnPaths (es : List RawEntry) : List (List Chars) :=
  (es.filter (entryGuard pyExts)).filterMap (fun e =>
    match e.content with
    | none => some e.comps
    | some _ => none)

/-- Specifies that a raw entry is reachable at its path inside a tree:
either the entry describes the root node of the tree, or it lies under a
child of a directory node with the directory name prefixed. -/
inductive EntryAt : FSTree → RawEntry → Prop where
  | selfFile (n : Chars) (c : Option Chars) : EntryAt (.file n c) ⟨[n], false, c⟩
  | selfDir (n : Chars) (ch : List FSTree) : EntryAt (.dir n ch) ⟨[n], true, none⟩
  | child (n : Chars) (ch : List FSTree) (t : FSTree) (e : RawEntry) :
      t ∈ ch → EntryAt t e → EntryAt (.dir n ch) ⟨n :: e.comps, e.isDir, e.content⟩

/-- An entry reachable under the scan root whose children are ts. -/
def ForestEntryAt (ts : List FSTree) (e : RawEntry) : Prop :=
  ∃ t ∈ ts, EntryAt t e

/-- Well-formedness of a real directory tree: sibling names are distinct at
every level. -/
inductive WF : FSTree → Prop where
  | file (n : Chars) (c : Option Chars) : WF (.file n c)
  | dir (n : Chars) (ch : List FSTree) :
      (ch.map FSTree.name).Nodup → (∀ t ∈ ch, WF t) → WF (.dir n ch)

/-- Well-formedness of the scan root. -/
def WFForest (ts : List FSTree) : Prop :=
  (ts.map FSTree.name).Nodup ∧ ∀ t ∈ ts, WF t

/-- A delimiter pattern pair has a match somewhere in the text. -/
def hasMatch (p : Chars × Chars) (s : Chars) : Bool :=
  (matchDelim p.1 p.2 s).isSome

/-- Declarative description of the non-greedy leftmost delimiter match: the
opening delimiter occurs at its first position i, the closing delimiter
occurs at its first position j past the opening one, and the captured group
is the text in between. -/
def firstMatchSpec (o c s g : Chars) : Prop :=
  ∃ i j, occursAt o s i ∧ (∀ a < i, ¬ occursAt o s a) ∧
    occursAt c (s.drop (i + o.length)) j ∧
    (∀ b < j, ¬ occursAt c (s.drop (i + o.length)) b) ∧
    g = (s.drop (i + o.length)).take j

/-- The created-with regex matches the text s at start position q. -/
abbrev createdAt (s : Chars) (q : Nat) : Prop :=
  cwLit.isPrefixOf (s.drop q) = true ∧
  (matchCreatedTail (s.drop (q + cwLit.length))).isSome = true

/-- The literal created-with mark named by the specification. -/
def fooLit : Chars := "Created with Foo (2024-01-02)".data

/-- The part of fooLit after the created-with literal. -/
def fooTail : Chars := "Foo (2024-01-02)".data

/-- The rendered block contributed by one record inside the joined report:
a separating newline followed by the joined fragments of the record. -/
def blockStr (d : FileDoc) : Chars := nlc ++ joinSep nlc (docItems d)

/-- File content carrying two created-with marks inside one comment: the
second one is exactly the mark named by the specification. -/
def c3bad : Chars :=
  "\"\"\"Created with Bar (x) Created with Foo (2024-01-02)\"\"\"".data

/-- The record the Extractor produces for c3bad. -/
def c3doc : FileDoc :=
  { path := [], description := "Created with Bar (x) Created with Foo (2024-01-02)".data,
    created_date := some ("x".data), created_with := some ("Bar".data) }

/-- File content whose only created-with mark is the one the specification
names. -/
def c3good : Chars := "\"\"\"Hi\nCreated with Foo (2024-01-02)\n\"\"\"".data

/-- The record the Extractor produces for c3good. -/
def c3gooddoc : FileDoc :=
  { path := [], description := "Hi\nCreated with Foo (2024-01-02)".data,
    created_date := some ("2024-01-02".data), created_with := some ("Foo".data) }

/-- The scenario content named by the specification: a Python-style comment
holding Hello, a newline, and a created-with mark for Claude. -/
def c3claude : Chars := "\"\"\"Hello\nCreated with Claude (2024-01-02)\n\"\"\"".data

/-- The record the specification scenario expects for c3claude. -/
def c3claudedoc : FileDoc :=
  { path := [], description := "Hello\nCreated with Claude (2024-01-02)".data,
    created_date := some ("2024-01-02".data), created_with := some ("Claude".data) }

/-- A record whose created fields are present but empty, as produced by the
Extractor from a comment holding the mark with empty agent and date. -/
def cexDoc : FileDoc :=
  { path := [], description := "Created with ()".data,
    created_date := some [], created_with := some [] }

/-- The same record with both created fields absent. -/
def cexDocNone : FileDoc :=
  { path := [], description := "Created with ()".data,
    created_date := none, created_with := none }

/-- A concrete scan root used to instantiate the walker theorem: one
subdirectory with a Python file, a shell file, a text file whose read
fails. -/
def wforest : List FSTree :=
  [FSTree.dir ("sub".data) [FSTree.file ("a.py".data) (some ("\"\"\"Doc\"\"\"".data))],
   FSTree.file ("b.sh".data) (some []),
   FSTree.file ("c.txt".data) none]

/-- The record the Extractor produces for a bare one-word comment. -/
def c4doc : FileDoc :=
  { path := [], description := "x".data, created_date := none, created_with := none }

/-- A readable entry with an extractable comment, for scan instances. -/
def goodEntry : RawEntry :=
  ⟨["ok.py".data], false, some ("\"\"\"Fine\"\"\"".data)⟩

/-- An entry whose read fails, for scan instances. -/
def badEntry : RawEntry := ⟨["broken.py".data], false, none⟩

/-- An entry whose suffix differs from an allowed one only in letter case,
with content that would match a pattern if it were visited. -/
def upperEntry : RawEntry :=
  ⟨["x.PY".data], false, some ("\"\"\"Doc\"\"\"".data)⟩

/-- Taking while a predicate holds walks through a block that satisfies it
everywhere. -/
theorem takeWhile_app {p : Char → Bool} (a b : Chars) (h : a.all p = true) :
    (a ++ b).takeWhile p = a ++ b.takeWhile p := by
  induction a with
  | nil => simp
  | cons x a ih =>
    simp only [List.all_cons, Bool.and_eq_true] at h
    simp [List.takeWhile_cons, h.1, ih h.2]

/-- A character found in the left part of an appended list is found at the
same index in the whole list. -/
theorem charIdx_app (t : Char) (a b : Chars) (i : Nat) (h : charIdx t a = some i) :
    charIdx t (a ++ b) = some i := by
  induction a generalizing i with
  | nil => simp [charIdx] at h
  | cons x a ih =>
    rw [charIdx] at h
    show charIdx t (x :: (a ++ b)) = some i
    rw [charIdx]
    by_cases hx : x = t
    · rwa [if_pos hx] at h ⊢
    · rw [if_neg hx] at h ⊢
      obtain ⟨i0, hi0, rfl⟩ := Option.map_eq_some'.mp h
      rw [ih i0 hi0]
      rfl

/-- Joining a concatenation of two non-empty fragment lists splits into the
two joins around one separator. -/
theorem joinSep_append (sep : Chars) (xs ys : List Chars) (hx : xs ≠ []) (hy : ys ≠ []) :
    joinSep sep (xs ++ ys) = joinSep sep xs ++ sep ++ joinSep sep ys := by
  induction xs with
  | nil => exact absurd rfl hx
  | cons x xs ih =>
    cases xs with
    | nil =>
      cases ys with
      | nil => exact absurd rfl hy
      | cons y ys => simp [joinSep]
    | cons x2 xs2 =>
      have h2 := ih (by simp)
      show x ++ sep ++ joinSep sep ((x2 :: xs2) ++ ys) =
        joinSep sep (x :: x2 :: xs2) ++ sep ++ joinSep sep ys
      rw [h2]
      show x ++ sep ++ (joinSep sep (x2 :: xs2) ++ sep ++ joinSep sep ys) =
        (x ++ sep ++ joinSep sep (x2 :: xs2)) ++ sep ++ joinSep sep ys
      simp [List.append_assoc]

/-- Joining a head segment followed by flattened non-empty groups produces
the join of the head followed by one joined block per group, each opened by
a separator. -/
theorem joinSep_flatten (sep : Chars) (A : List Chars) (G : List (List Chars))
    (hA : A ≠ []) (hG : ∀ g ∈ G, g ≠ []) :
    joinSep sep (A ++ G.flatten) =
      joinSep sep A ++ (G.map (fun g => sep ++ joinSep sep g)).flatten := by
  induction G generalizing A with
  | nil => simp
  | cons g G ih =>
    have hg : g ≠ [] := hG g (by simp)
    have hA2 : A ++ g ≠ [] := by
      cases A with
      | nil => exact absurd rfl hA
      | cons a A => simp
    calc joinSep sep (A ++ (g :: G).flatten)
        = joinSep sep ((A ++ g) ++ G.flatten) := by
          simp [List.flatten_cons, List.append_assoc]
      _ = joinSep sep (A ++ g) ++ (G.map (fun x => sep ++ joinSep sep x)).flatten :=
          ih (A ++ g) hA2 (fun x hx => hG x (List.mem_cons_of_mem g hx))
      _ = (joinSep sep A ++ sep ++ joinSep sep g) ++
            (G.map (fun x => sep ++ joinSep sep x)).flatten := by
          rw [joinSep_append sep A g hA hg]
      _ = joinSep sep A ++
            ((g :: G).map (fun x => sep ++ joinSep sep x)).flatten := by
          simp [List.append_assoc]

/-- Occurrence shifted across a leading character. -/
theorem occursAt_cons (p : Chars) (c : Char) (s : Chars) (i : Nat) :
    occursAt p (c :: s) (i + 1) ↔ occursAt p s i := by
  simp [occursAt, List.drop_succ_cons]

/-- The index search of findFrom returns exactly the first occurrence of a
non-empty pattern. -/
theorem findFrom_some_iff (p s : Chars) (i : Nat) (hp : p ≠ []) :
    findFrom p s = some i ↔ (occursAt p s i ∧ ∀ j < i, ¬ occursAt p s j) := by
  induction s generalizing i with
  | nil =>
    have h1 : p.isEmpty = false := by
      cases p with
      | nil => exact absurd rfl hp
      | cons a q => rfl
    have h2 : ∀ k, ¬ occursAt p [] k := by
      intro k
      simp only [occursAt, List.drop_nil]
      cases p with
      | nil => exact absurd rfl hp
      | cons a q => simp [List.isPrefixOf]
    simp [findFrom, h1, h2]
  | cons c s ih =>
    rw [findFrom]
    by_cases h0 : p.isPrefixOf (c :: s)
    · rw [if_pos h0]
      have h00 : occursAt p (c :: s) 0 := by simpa [occursAt] using h0
      constructor
      · intro h
        obtain rfl := Option.some.inj h
        exact ⟨h00, fun j hj => absurd hj (Nat.not_lt_zero j)⟩
      · rintro ⟨hocc, hmin⟩
        cases i with
        | zero => rfl
        | succ i => exact absurd h00 (hmin 0 (Nat.succ_pos i))
    · rw [if_neg h0]
      have hnot0 : ¬ occursAt p (c :: s) 0 := by simpa [occursAt] using h0
      constructor
      · intro h
        obtain ⟨i0, hi0, rfl⟩ := Option.map_eq_some'.mp h
        obtain ⟨hocc, hmin⟩ := (ih i0).mp hi0
        refine ⟨(occursAt_cons p c s i0).mpr hocc, ?_⟩
        intro j hj
        cases j with
        | zero => exact hnot0
        | succ j => exact fun hc => hmin j (Nat.lt_of_succ_lt_succ hj) ((occursAt_cons p c s j).mp hc)
      · rintro ⟨hocc, hmin⟩
        cases i with
        | zero => exact absurd hocc hnot0
        | succ i =>
          have : findFrom p s = some i := (ih i).mpr
            ⟨(occursAt_cons p c s i).mp hocc,
             fun j hj hc => hmin (j + 1) (Nat.succ_lt_succ hj) ((occursAt_cons p c s j).mpr hc)⟩
          rw [this]
          rfl

/-- When the index search fails, the pattern occurs nowhere. -/
theorem findFrom_none_iff (p s : Chars) (hp : p ≠ []) :
    findFrom p s = none ↔ ∀ i, ¬ occursAt p s i := by
  constructor
  · intro h i hocc
    classical
    by_cases hex : ∃ j, occursAt p s j ∧ ∀ a < j, ¬ occursAt p s a
    · obtain ⟨j, hj, hmin⟩ := hex
      rw [(findFrom_some_iff p s j hp).mpr ⟨hj, hmin⟩] at h
      exact Option.noConfusion h
    · have := Nat.find_spec (⟨i, hocc⟩ : ∃ k, occursAt p s k)
      exact hex ⟨Nat.find (⟨i, hocc⟩ : ∃ k, occursAt p s k), this,
        fun a ha => Nat.find_min (⟨i, hocc⟩ : ∃ k, occursAt p s k) ha⟩
  · intro h
    cases hf : findFrom p s with
    | none => rfl
    | some i => exact absurd ((findFrom_some_iff p s i hp).mp hf).1 (h i)

/-- A minimal witness of a property on naturals is unique. -/
theorem minimal_unique {P : Nat → Prop} {i j : Nat}
    (h1 : P i) (m1 : ∀ a < i, ¬ P a) (h2 : P j) (m2 : ∀ a < j, ¬ P a) : i = j := by
  rcases Nat.lt_trichotomy i j with h | h | h
  · exact absurd h1 (m2 i h)
  · exact h
  · exact absurd h2 (m1 j h)

/-- The delimiter matcher succeeds with a captured group exactly when the
declarative first-occurrence description holds. -/
theorem matchDelim_some_iff (o c s g : Chars) (ho : o ≠ []) (hc : c ≠ []) :
    matchDelim o c s = some g ↔ firstMatchSpec o c s g := by
  unfold matchDelim firstMatchSpec
  cases hfo : findFrom o s with
  | none =>
    have hall := (findFrom_none_iff o s ho).mp hfo
    simp only [Option.bind_eq_bind, Option.none_bind]
    constructor
    · intro h
      exact Option.noConfusion h
    · rintro ⟨i, j, hi, -, -, -, -⟩
      exact absurd hi (hall i)
  | some i0 =>
    obtain ⟨hocc0, hmin0⟩ := (findFrom_some_iff o s i0 ho).mp hfo
    simp only [Option.bind_eq_bind, Option.some_bind]
    cases hfc : findFrom c (s.drop (i0 + o.length)) with
    | none =>
      have hallc := (findFrom_none_iff c (s.drop (i0 + o.length)) hc).mp hfc
      simp only [Option.map_none']
      constructor
      · intro h
        exact Option.noConfusion h
      · rintro ⟨i, j, hi, hmi, hj, -, -⟩
        have hii : i = i0 := minimal_unique hi hmi hocc0 hmin0
        subst hii
        exact absurd hj (hallc j)
    | some j0 =>
      obtain ⟨hoccc, hminc⟩ := (findFrom_some_iff c (s.drop (i0 + o.length)) j0 hc).mp hfc
      simp only [Option.map_some']
      constructor
      · intro h
        obtain rfl := Option.some.inj h
        exact ⟨i0, j0, hocc0, hmin0, hoccc, hminc, rfl⟩
      · rintro ⟨i, j, hi, hmi, hj, hmj, rfl⟩
        have hii : i = i0 := minimal_unique hi hmi hocc0 hmin0
        subst hii
        have hjj : j = j0 := minimal_unique hj hmj hoccc hminc
        subst hjj
        rfl

/-- The created-with match shifted across a leading character. -/
theorem createdAt_cons (c : Char) (s : Chars) (q : Nat) :
    createdAt (c :: s) (q + 1) ↔ createdAt s q := by
  have harith : q + 1 + cwLit.length = (q + cwLit.length) + 1 := by omega
  unfold createdAt
  rw [harith, List.drop_succ_cons, List.drop_succ_cons]

/-- If the created-with regex matches nowhere, the search fails. -/
theorem searchCreated_none (s : Chars) (h : ∀ q, ¬ createdAt s q) :
    searchCreated s = none := by
  induction s with
  | nil => rfl
  | cons c rest ih =>
    have hrest : ∀ q, ¬ createdAt rest q := fun q hq =>
      h (q + 1) ((createdAt_cons c rest q).mpr hq)
    rw [searchCreated]
    by_cases h0 : cwLit.isPrefixOf (c :: rest)
    · rw [if_pos h0]
      cases hmt : matchCreatedTail (List.drop cwLit.length (c :: rest)) with
      | some r =>
        have hcc : createdAt (c :: rest) 0 := by
          unfold createdAt
          rw [List.drop_zero, Nat.zero_add, hmt]
          exact ⟨h0, rfl⟩
        exact absurd hcc (h 0)
      | none => exact ih hrest
    · rw [if_neg h0]
      exact ih hrest

/-- If the created-with regex first matches at position p, the search
returns exactly the groups matched there. -/
theorem searchCreated_at (s : Chars) (p : Nat) (r : Chars × Chars)
    (hpre : cwLit.isPrefixOf (s.drop p) = true)
    (hmt : matchCreatedTail (s.drop (p + cwLit.length)) = some r)
    (hmin : ∀ q < p, ¬ createdAt s q) :
    searchCreated s = some r := by
  induction s generalizing p with
  | nil =>
    rw [List.drop_nil] at hpre
    exact absurd hpre (by decide)
  | cons c rest ih =>
    cases p with
    | zero =>
      rw [List.drop_zero] at hpre
      rw [Nat.zero_add] at hmt
      rw [searchCreated, if_pos hpre, hmt]
    | succ p =>
      have h0 : ¬ createdAt (c :: rest) 0 := hmin 0 (Nat.succ_pos p)
      have harith : p + 1 + cwLit.length = (p + cwLit.length) + 1 := by omega
      rw [List.drop_succ_cons] at hpre
      rw [harith, List.drop_succ_cons] at hmt
      have hminr : ∀ q < p, ¬ createdAt rest q := fun q hq hcq =>
        hmin (q + 1) (Nat.succ_lt_succ hq) ((createdAt_cons c rest q).mpr hcq)
      have htail := ih p hpre hmt hminr
      rw [searchCreated]
      by_cases hp0 : cwLit.isPrefixOf (c :: rest)
      · rw [if_pos hp0]
        cases hmt0 : matchCreatedTail (List.drop cwLit.length (c :: rest)) with
        | some r0 =>
          have hcc : createdAt (c :: rest) 0 := by
            unfold createdAt
            rw [List.drop_zero, Nat.zero_add, hmt0]
            exact ⟨hp0, rfl⟩
          exact absurd hcc h0
        | none => exact htail
      · rw [if_neg hp0]
        exact htail

/-- The created-with tail matcher applied to the literal tail of the mark
named by the specification, followed by anything. -/
theorem matchCreatedTail_foo (b : Chars) :
    matchCreatedTail (fooTail ++ b) = some ("Foo ".data, "2024-01-02".data) := by
  have hline : (fooTail ++ b).takeWhile (fun c => !(c == '\n'))
      = fooTail ++ b.takeWhile (fun c => !(c == '\n')) := takeWhile_app _ _ (by decide)
  unfold matchCreatedTail
  rw [hline]
  generalize b.takeWhile (fun c => !(c == '\n')) = tb
  have hp : charIdx '(' (fooTail ++ tb) = some 4 := charIdx_app _ _ _ _ (by decide)
  rw [hp]
  simp only [Option.bind_eq_bind, Option.some_bind]
  have hdrop : (fooTail ++ tb).drop (4 + 1) = "2024-01-02)".data ++ tb := by
    rw [List.drop_append_of_le_length (by decide)]
    exact congrArg (fun l => l ++ tb) (by decide)
  rw [hdrop]
  have hq : charIdx ')' ("2024-01-02)".data ++ tb) = some 10 := charIdx_app _ _ _ _ (by decide)
  rw [hq]
  simp only [Option.map_some']
  have ht1 : (fooTail ++ tb).take 4 = "Foo ".data := by
    rw [List.take_append_of_le_length (by decide)]
    decide
  have ht2 : ("2024-01-02)".data ++ tb).take 10 = "2024-01-02".data := by
    rw [List.take_append_of_le_length (by decide)]
    decide
  rw [ht1, ht2]

/-- Structural induction for trees with list children. -/
theorem FSTree.inductionOn {motive : FSTree → Prop}
    (hfile : ∀ n c, motive (FSTree.file n c))
    (hdir : ∀ n ch, (∀ t ∈ ch, motive t) → motive (FSTree.dir n ch)) :
    ∀ t, motive t
  | .file n c => hfile n c
  | .dir n ch => hdir n ch (fun t ht => FSTree.inductionOn hfile hdir t)
termination_by t => sizeOf t
decreasing_by
  simp only [FSTree.dir.sizeOf_spec]
  have := List.sizeOf_lt_of_mem ht
  omega

/-- Unfolding of the entry enumeration on a directory, with the attach
wrapper of the recursion removed. -/
theorem entries_dir (n : Chars) (ch : List FSTree) :
    (FSTree.dir n ch).entries = ⟨[n], true, none⟩ ::
      (ch.map (fun t => t.entries.map (fun e => ⟨n :: e.comps, e.isDir, e.content⟩))).flatten := by
  rw [FSTree.entries]
  congr 1
  congr 1
  simp

/-- Every entry of a tree has a non-empty path starting with the root
name. -/
theorem entries_head (t : FSTree) (e : RawEntry) (he : e ∈ t.entries) :
    ∃ rest, e.comps = t.name :: rest := by
  cases t with
  | file n c =>
    rw [FSTree.entries, List.mem_singleton] at he
    subst he
    exact ⟨[], rfl⟩
  | dir n ch =>
    rw [entries_dir, List.mem_cons] at he
    rcases he with rfl | he
    · exact ⟨[], rfl⟩
    · rw [List.mem_flatten] at he
      obtain ⟨l, hl, hel⟩ := he
      rw [List.mem_map] at hl
      obtain ⟨t0, _, rfl⟩ := hl
      rw [List.mem_map] at hel
      obtain ⟨e0, _, rfl⟩ := hel
      exact ⟨e0.comps, rfl⟩

/-- Under distinct sibling names, the enumerated entry paths of a tree are
distinct. -/
theorem entries_nodup (t : FSTree) (hwf : WF t) :
    (t.entries.map RawEntry.comps).Nodup := by
  induction hwf with
  | file n c => simp [FSTree.entries]
  | dir n ch hnames hch ih =>
    rw [entries_dir]
    simp only [List.map_cons, List.map_flatten, List.map_map]
    rw [List.nodup_cons]
    constructor
    · intro hmem
      rw [List.mem_flatten] at hmem
      obtain ⟨l, hl, hnl⟩ := hmem
      rw [List.mem_map] at hl
      obtain ⟨t0, ht0, rfl⟩ := hl
      simp only [Function.comp_apply, List.map_map, List.mem_map] at hnl
      obtain ⟨e0, he0, heq⟩ := hnl
      have hnil : e0.comps = [] := by
        have := heq
        simp only [Function.comp_apply] at this
        injection this with h1 h2
      obtain ⟨rest, hrest⟩ := entries_head t0 e0 he0
      rw [hrest] at hnil
      exact List.noConfusion hnil
    · rw [List.nodup_flatten]
      constructor
      · intro l hl
        rw [List.mem_map] at hl
        obtain ⟨t0, ht0, rfl⟩ := hl
        simp only [Function.comp_apply, List.map_map]
        have hfun : (RawEntry.comps ∘ fun e : RawEntry =>
            RawEntry.mk (n :: e.comps) e.isDir e.content)
            = (fun l0 : List Chars => n :: l0) ∘ RawEntry.comps := rfl
        rw [hfun, ← List.map_map]
        refine List.Nodup.map ?_ (ih t0 ht0)
        intro a b hab
        injection hab

      · rw [List.pairwise_map]
        have hpw : List.Pairwise (fun a b : FSTree => a.name ≠ b.name) ch :=
          List.pairwise_map.mp hnames
        refine hpw.imp ?_
        intro a b hne x hxa hxb
        simp only [Function.comp_apply, List.map_map, List.mem_map] at hxa hxb
        obtain ⟨e1, he1, rfl⟩ := hxa
        obtain ⟨e2, he2, hx2⟩ := hxb
        obtain ⟨r1, hr1⟩ := entries_head a e1 he1
        obtain ⟨r2, hr2⟩ := entries_head b e2 he2
        have hcomp : e1.comps = e2.comps := by
          have := hx2
          simp only [Function.comp_apply] at this
          injection this with h1 h2
          exact h2.symm
        rw [hr1, hr2] at hcomp
        injection hcomp with hh _
        exact hne hh

/-- Membership in the enumerated entries is exactly reachability at a path
inside the tree. -/
theorem mem_entries_iff (t : FSTree) : ∀ e : RawEntry, e ∈ t.entries ↔ EntryAt t e := by
  induction t using FSTree.inductionOn with
  | hfile n c =>
    intro e
    rw [FSTree.entries, List.mem_singleton]
    constructor
    · rintro rfl
      exact EntryAt.selfFile n c
    · intro h
      cases h
      rfl
  | hdir n ch ih =>
    intro e
    rw [entries_dir, List.mem_cons]
    constructor
    · rintro (rfl | hmem)
      · exact EntryAt.selfDir n ch
      · rw [List.mem_flatten] at hmem
        obtain ⟨l, hl, hel⟩ := hmem
        rw [List.mem_map] at hl
        obtain ⟨t0, ht0, rfl⟩ := hl
        rw [List.mem_map] at hel
        obtain ⟨e0, he0, rfl⟩ := hel
        exact EntryAt.child n ch t0 e0 ht0 ((ih t0 ht0 e0).mp he0)
    · intro h
      cases h with
      | selfDir => exact Or.inl rfl
      | child _ _ t0 e0 ht0 he0 =>
        refine Or.inr ?_
        rw [List.mem_flatten]
        refine ⟨t0.entries.map (fun e => ⟨n :: e.comps, e.isDir, e.content⟩), ?_, ?_⟩
        · rw [List.mem_map]
          exact ⟨t0, ht0, rfl⟩
        · rw [List.mem_map]
          exact ⟨e0, (ih t0 ht0 e0).mpr he0, rfl⟩

/-- Membership in the rglob enumeration of the scan root is exactly
reachability under one of its children. -/
theorem mem_forestEntries_iff (ts : List FSTree) (e : RawEntry) :
    e ∈ forestEntries ts ↔ ForestEntryAt ts e := by
  unfold forestEntries ForestEntryAt
  rw [List.mem_flatten]
  constructor
  · rintro ⟨l, hl, hel⟩
    rw [List.mem_map] at hl
    obtain ⟨t0, ht0, rfl⟩ := hl
    exact ⟨t0, ht0, (mem_entries_iff t0 e).mp hel⟩
  · rintro ⟨t0, ht0, he⟩
    exact ⟨t0.entries, List.mem_map.mpr ⟨t0, ht0, rfl⟩, (mem_entries_iff t0 e).mpr he⟩

/-- Under distinct sibling names, the rglob enumeration of the scan root
lists distinct paths. -/
theorem forest_nodup (ts : List FSTree) (h : WFForest ts) :
    ((forestEntries ts).map RawEntry.comps).Nodup := by
  obtain ⟨hnames, hts⟩ := h
  unfold forestEntries
  rw [List.map_flatten, List.map_map, List.nodup_flatten]
  constructor
  · intro l hl
    rw [List.mem_map] at hl
    obtain ⟨t0, ht0, rfl⟩ := hl
    exact entries_nodup t0 (hts t0 ht0)
  · rw [List.pairwise_map]
    have hpw : List.Pairwise (fun a b : FSTree => a.name ≠ b.name) ts :=
      List.pairwise_map.mp hnames
    refine hpw.imp ?_
    intro a b hne x hxa hxb
    simp only [Function.comp_apply, List.mem_map] at hxa hxb
    obtain ⟨e1, he1, rfl⟩ := hxa
    obtain ⟨e2, he2, hx2⟩ := hxb
    obtain ⟨r1, hr1⟩ := entries_head a e1 he1
    obtain ⟨r2, hr2⟩ := entries_head b e2 he2
    rw [hr1] at hx2
    rw [hr2] at hx2
    injection hx2 with hh _
    exact hne hh.symm

/-- The fragment list of a record is never empty. -/
theorem docItems_ne_nil (d : FileDoc) : docItems d ≠ [] := by
  simp [docItems]

/-- The report is the joined header followed by one rendered block per
record, in sequence order. -/
theorem format_output_blocks (docs : List FileDoc) :
    format_output docs =
      project_context ++ nlc ++ sectionHdr ++ (docs.map blockStr).flatten := by
  unfold format_output
  rw [joinSep_flatten nlc [project_context, sectionHdr] (docs.map docItems)
      (by simp) (by intro g hg; rw [List.mem_map] at hg; obtain ⟨d, _, rfl⟩ := hg;
                    exact docItems_ne_nil d)]
  rw [List.map_map]
  have hhd : joinSep nlc [project_context, sectionHdr] =
      project_context ++ nlc ++ sectionHdr := by
    simp [joinSep]
  rw [hhd]
  have hbl : ((fun g => nlc ++ joinSep nlc g) ∘ docItems) = blockStr := by
    funext d
    simp [blockStr, Function.comp]
  rw [hbl, List.append_assoc, List.append_assoc]

/-- Claim C6: rendering the empty record sequence yields exactly the static
project-context preamble followed by the section header literal, with no
record blocks. -/
theorem claim6_empty_render : format_output [] = project_context ++ nlc ++ sectionHdr := by
  rw [format_output_blocks]
  simp

/-- Claim C5, amended: the report is the header followed by one block per record
in order, and the block of each record is the path line, a dash underline
exactly as long as the path, the description, and a trailing created-with
line exactly when created_with and created_date are both present and
non-empty (Python truthiness); the block is framed by separating blank
lines.  The amendment relative to the specification sentence: the source
guards the created-with line by Python truthiness, so a present but empty
created_with or created_date also omits the line. -/
theorem claim5_record_render (docs : List FileDoc) :
    format_output docs =
      project_context ++ nlc ++ sectionHdr ++ (docs.map blockStr).flatten ∧
    ∀ d : FileDoc,
      blockStr d =
        nlc ++ nlc ++ d.path ++ nlc ++ List.replicate d.path.length '-' ++ nlc ++
          d.description ++
          (if optTruthy d.created_with && optTruthy d.created_date then
            nlc ++ ("\nCreated with ".data ++ d.created_with.getD [] ++ " (".data ++
              d.created_date.getD [] ++ ")".data)
           else []) ++ nlc ++ nlc := by
  refine ⟨format_output_blocks docs, ?_⟩
  intro d
  by_cases h : optTruthy d.created_with && optTruthy d.created_date
  · rw [blockStr]
    unfold docItems
    rw [if_pos h, if_pos h]
    simp [nlc, joinSep, List.append_assoc]
  · rw [blockStr]
    unfold docItems
    rw [if_neg h, if_neg h]
    simp [nlc, joinSep, List.append_assoc]

/-- Counterexample for claim C5: a record whose created_with and created_date are both
present (as the Extractor itself produces from a comment with an empty
agent and date) renders exactly like the same record with both fields
absent, so no created-with line is emitted although the fields are
present. -/
theorem claim5_counterexample :
    extract_doc_comment [] ("\"\"\"Created with ()\"\"\"".data) = some cexDoc ∧
    cexDoc.created_with.isSome = true ∧ cexDoc.created_date.isSome = true ∧
    format_output [cexDoc] = format_output [cexDocNone] := by
  refine ⟨by decide, rfl, rfl, ?_⟩
  have h : docItems cexDoc = docItems cexDocNone := by decide
  unfold format_output
  rw [List.map_singleton, List.map_singleton, h]

/-- Claim C7: the Formatter is order-preserving and performs no filtering or
sorting: the report for a record pair shows the first block before the
second, and the gather loop maps a concatenation of walker outputs to the
concatenation of the per-part record lists, so report order equals walker
order. -/
theorem claim7_order (r1 r2 : FileDoc) (es1 es2 : List RawEntry) :
    format_output [r1, r2] =
      project_context ++ nlc ++ sectionHdr ++ blockStr r1 ++ blockStr r2 ∧
    gatherDocsFrom (es1 ++ es2) = gatherDocsFrom es1 ++ gatherDocsFrom es2 := by
  constructor
  · rw [format_output_blocks]
    simp [List.append_assoc]
  · unfold gatherDocsFrom
    rw [List.filter_append, List.filterMap_append]

/-- Claim C4: for every FileDoc produced by the Extractor, created_with and
created_date are both set or both unset. -/
theorem claim4_both_or_neither (path C : Chars) (d : FileDoc)
    (h : extract_doc_comment path C = some d) :
    d.created_with.isSome = d.created_date.isSome := by
  unfold extract_doc_comment at h
  cases htry : tryPatterns doc_patterns C with
  | none =>
    rw [htry] at h
    exact Option.noConfusion h
  | some g =>
    rw [htry] at h
    simp only [Option.map_some'] at h
    cases hsc : searchCreated (pyStrip g) with
    | some r =>
      rw [hsc] at h
      obtain rfl := Option.some.inj h
      rfl
    | none =>
      rw [hsc] at h
      obtain rfl := Option.some.inj h
      rfl

/-- Witness for claim C4: the extraction result on a concrete file has the two
created fields in the same state. -/
theorem claim4_witness :
    extract_doc_comment [] ("\"\"\"x\"\"\"".data) = some c4doc ∧
    c4doc.created_with.isSome = c4doc.created_date.isSome :=
  ⟨by decide, claim4_both_or_neither [] ("\"\"\"x\"\"\"".data) c4doc (by decide)⟩

/-- Claim C1: when the content matches two or more delimiter patterns, the
Extractor uses the pattern with the least index in the priority list,
regardless of positions in the text, and the captured group is taken at
the first occurrence of that winning pattern. -/
theorem claim1_pattern_priority (C : Chars)
    (h2 : 2 ≤ (doc_patterns.filter (fun p => hasMatch p C)).length) :
    ∃ k, ∃ hk : k < doc_patterns.length, ∃ o c,
      doc_patterns.get ⟨k, hk⟩ = (o, c) ∧
      hasMatch (o, c) C = true ∧
      (∀ j, ∀ hj : j < doc_patterns.length, j < k →
        hasMatch (doc_patterns.get ⟨j, hj⟩) C = false) ∧
      ∃ g, tryPatterns doc_patterns C = some g ∧ firstMatchSpec o c C g := by
  cases h1 : matchDelim dq3 dq3 C with
  | some g1 =>
    refine ⟨0, by decide, dq3, dq3, rfl, by simp [hasMatch, h1], ?_, g1, ?_, ?_⟩
    · intro j hj hlt
      exact absurd hlt (Nat.not_lt_zero j)
    · simp [tryPatterns, doc_patterns, h1]
    · exact (matchDelim_some_iff dq3 dq3 C g1 (by decide) (by decide)).mp h1
  | none =>
    cases hb : matchDelim ("/**".data) ("*/".data) C with
    | some g2 =>
      refine ⟨1, by decide, "/**".data, "*/".data, rfl, by simp [hasMatch, hb], ?_, g2, ?_, ?_⟩
      · intro j hj hlt
        have hj0 : j = 0 := by omega
        subst hj0
        show hasMatch (dq3, dq3) C = false
        simp [hasMatch, h1]
      · simp [tryPatterns, doc_patterns, h1, hb]
      · exact (matchDelim_some_iff ("/**".data) ("*/".data) C g2 (by decide) (by decide)).mp hb
    | none =>
      cases hc : matchDelim ("<#".data) ("#>".data) C with
      | some g3 =>
        refine ⟨2, by decide, "<#".data, "#>".data, rfl, by simp [hasMatch, hc], ?_, g3, ?_, ?_⟩
        · intro j hj hlt
          have hj01 : j = 0 ∨ j = 1 := by omega
          rcases hj01 with rfl | rfl
          · show hasMatch (dq3, dq3) C = false
            simp [hasMatch, h1]
          · show hasMatch ("/**".data, "*/".data) C = false
            simp [hasMatch, hb]
        · simp [tryPatterns, doc_patterns, h1, hb, hc]
        · exact (matchDelim_some_iff ("<#".data) ("#>".data) C g3 (by decide) (by decide)).mp hc
      | none =>
        cases hd : matchDelim sq3 sq3 C with
        | some g4 =>
          refine ⟨3, by decide, sq3, sq3, rfl, by simp [hasMatch, hd], ?_, g4, ?_, ?_⟩
          · intro j hj hlt
            have hj012 : j = 0 ∨ j = 1 ∨ j = 2 := by omega
            rcases hj012 with rfl | rfl | rfl
            · show hasMatch (dq3, dq3) C = false
              simp [hasMatch, h1]
            · show hasMatch ("/**".data, "*/".data) C = false
              simp [hasMatch, hb]
            · show hasMatch ("<#".data, "#>".data) C = false
              simp [hasMatch, hc]
          · simp [tryPatterns, doc_patterns, h1, hb, hc, hd]
          · exact (matchDelim_some_iff sq3 sq3 C g4 (by decide) (by decide)).mp hd
        | none =>
          exfalso
          simp [doc_patterns, List.filter_cons, hasMatch, h1, hb, hc, hd] at h2

/-- Witness for claim C1: a file whose C-style comment occurs before its
triple-double-quote comment in the text still selects the
triple-double-quote pattern, which is first in priority order. -/
theorem claim1_witness :
    2 ≤ (doc_patterns.filter
          (fun p => hasMatch p ("/**a*/ \"\"\"b\"\"\"".data))).length ∧
    (∃ k, ∃ hk : k < doc_patterns.length, ∃ o c,
      doc_patterns.get ⟨k, hk⟩ = (o, c) ∧
      hasMatch (o, c) ("/**a*/ \"\"\"b\"\"\"".data) = true ∧
      (∀ j, ∀ hj : j < doc_patterns.length, j < k →
        hasMatch (doc_patterns.get ⟨j, hj⟩) ("/**a*/ \"\"\"b\"\"\"".data) = false) ∧
      ∃ g, tryPatterns doc_patterns ("/**a*/ \"\"\"b\"\"\"".data) = some g ∧
        firstMatchSpec o c ("/**a*/ \"\"\"b\"\"\"".data) g) :=
  ⟨by decide, claim1_pattern_priority ("/**a*/ \"\"\"b\"\"\"".data) (by decide)⟩

/-- Claim C2: when the content matches exactly one delimiter pattern, the
Extractor returns a record whose description is the captured group of that
pattern at its first occurrence, trimmed of surrounding whitespace. -/
theorem claim2_single_pattern (path C : Chars)
    (h1 : (doc_patterns.filter (fun p => hasMatch p C)).length = 1) :
    ∃ d, extract_doc_comment path C = some d ∧
      ∃ k, ∃ hk : k < doc_patterns.length, ∃ o c,
        doc_patterns.get ⟨k, hk⟩ = (o, c) ∧ hasMatch (o, c) C = true ∧
        ∃ g, firstMatchSpec o c C g ∧ d.description = pyStrip g := by
  cases ha : matchDelim dq3 dq3 C with
  | some g1 =>
    have htry : tryPatterns doc_patterns C = some g1 := by
      simp [tryPatterns, doc_patterns, ha]
    unfold extract_doc_comment
    rw [htry]
    simp only [Option.map_some']
    have hrest : ∃ k, ∃ hk : k < doc_patterns.length, ∃ o c,
        doc_patterns.get ⟨k, hk⟩ = (o, c) ∧ hasMatch (o, c) C = true ∧
        ∃ g, firstMatchSpec o c C g ∧ pyStrip g1 = pyStrip g :=
      ⟨0, by decide, dq3, dq3, rfl, by simp [hasMatch, ha], g1,
        (matchDelim_some_iff dq3 dq3 C g1 (by decide) (by decide)).mp ha, rfl⟩
    cases hsc : searchCreated (pyStrip g1) with
    | some r => exact ⟨_, rfl, hrest⟩
    | none => exact ⟨_, rfl, hrest⟩
  | none =>
    cases hb : matchDelim ("/**".data) ("*/".data) C with
    | some g2 =>
      have htry : tryPatterns doc_patterns C = some g2 := by
        simp [tryPatterns, doc_patterns, ha, hb]
      unfold extract_doc_comment
      rw [htry]
      simp only [Option.map_some']
      have hrest : ∃ k, ∃ hk : k < doc_patterns.length, ∃ o c,
          doc_patterns.get ⟨k, hk⟩ = (o, c) ∧ hasMatch (o, c) C = true ∧
          ∃ g, firstMatchSpec o c C g ∧ pyStrip g2 = pyStrip g :=
        ⟨1, by decide, "/**".data, "*/".data, rfl, by simp [hasMatch, hb], g2,
          (matchDelim_some_iff ("/**".data) ("*/".data) C g2 (by decide) (by decide)).mp hb, rfl⟩
      cases hsc : searchCreated (pyStrip g2) with
      | some r => exact ⟨_, rfl, hrest⟩
      | none => exact ⟨_, rfl, hrest⟩
    | none =>
      cases hc : matchDelim ("<#".data) ("#>".data) C with
      | some g3 =>
        have htry : tryPatterns doc_patterns C = some g3 := by
          simp [tryPatterns, doc_patterns, ha, hb, hc]
        unfold extract_doc_comment
        rw [htry]
        simp only [Option.map_some']
        have hrest : ∃ k, ∃ hk : k < doc_patterns.length, ∃ o c,
            doc_patterns.get ⟨k, hk⟩ = (o, c) ∧ hasMatch (o, c) C = true ∧
            ∃ g, firstMatchSpec o c C g ∧ pyStrip g3 = pyStrip g :=
          ⟨2, by decide, "<#".data, "#>".data, rfl, by simp [hasMatch, hc], g3,
            (matchDelim_some_iff ("<#".data) ("#>".data) C g3 (by decide) (by decide)).mp hc, rfl⟩
        cases hsc : searchCreated (pyStrip g3) with
        | some r => exact ⟨_, rfl, hrest⟩
        | none => exact ⟨_, rfl, hrest⟩
      | none =>
        cases hd : matchDelim sq3 sq3 C with
        | some g4 =>
          have htry : tryPatterns doc_patterns C = some g4 := by
            simp [tryPatterns, doc_patterns, ha, hb, hc, hd]
          unfold extract_doc_comment
          rw [htry]
          simp only [Option.map_some']
          have hrest : ∃ k, ∃ hk : k < doc_patterns.length, ∃ o c,
              doc_patterns.get ⟨k, hk⟩ = (o, c) ∧ hasMatch (o, c) C = true ∧
              ∃ g, firstMatchSpec o c C g ∧ pyStrip g4 = pyStrip g :=
            ⟨3, by decide, sq3, sq3, rfl, by simp [hasMatch, hd], g4,
              (matchDelim_some_iff sq3 sq3 C g4 (by decide) (by decide)).mp hd, rfl⟩
          cases hsc : searchCreated (pyStrip g4) with
          | some r => exact ⟨_, rfl, hrest⟩
          | none => exact ⟨_, rfl, hrest⟩
        | none =>
          exfalso
          simp [doc_patterns, List.filter_cons, hasMatch, ha, hb, hc, hd] at h1

/-- Witness for claim C2: a file with only a PowerShell comment block yields a
record whose description is the trimmed captured group. -/
theorem claim2_witness :
    (doc_patterns.filter (fun p => hasMatch p ("<# w #>".data))).length = 1 ∧
    (∃ d, extract_doc_comment [] ("<# w #>".data) = some d ∧
      ∃ k, ∃ hk : k < doc_patterns.length, ∃ o c,
        doc_patterns.get ⟨k, hk⟩ = (o, c) ∧ hasMatch (o, c) ("<# w #>".data) = true ∧
        ∃ g, firstMatchSpec o c ("<# w #>".data) g ∧ d.description = pyStrip g) :=
  ⟨by decide, claim2_single_pattern [] ("<# w #>".data) (by decide)⟩

/-- Counterexample for claim C3: a comment that contains the substring listed by the
specification, preceded by another created-with mark, yields created_with
equal to Bar, not Foo: the regex search takes the leftmost match, not the
listed substring. -/
theorem claim3_counterexample :
    extract_doc_comment [] c3bad = some c3doc ∧
    occursAt fooLit c3doc.description 21 ∧
    c3doc.created_with ≠ some ("Foo".data) := by
  refine ⟨by decide, by decide, by decide⟩

/-- Claim C3, amended: for every extracted record, if the matched comment
contains the substring Created with Foo (2024-01-02) at a position before
which the created-with shape matches nowhere, then created_with is Foo and
created_date is 2024-01-02; if the created-with shape matches nowhere in
the comment at all, both fields are unset; and the scenario named by the
specification holds as stated: the file holding Hello, a newline, and a
created-with mark for Claude yields exactly the record with that
description, created_with Claude, created_date 2024-01-02.  The amendment
relative to the specification sentence: an earlier match of the
created-with shape wins over the listed substring, and the unset case is
keyed to the absence of any created-with shape rather than of that
particular substring. -/
theorem claim3_created_fields :
    (∀ (path C : Chars) (d : FileDoc), extract_doc_comment path C = some d →
      ((∃ p, occursAt fooLit d.description p ∧ ∀ q < p, ¬ createdAt d.description q) →
          d.created_with = some ("Foo".data) ∧ d.created_date = some ("2024-01-02".data)) ∧
      ((∀ q, ¬ createdAt d.description q) →
          d.created_with = none ∧ d.created_date = none)) ∧
    extract_doc_comment [] c3claude = some c3claudedoc := by
  refine ⟨?_, by decide⟩
  intro path C d hd
  unfold extract_doc_comment at hd
  cases htry : tryPatterns doc_patterns C with
  | none =>
    rw [htry] at hd
    exact Option.noConfusion hd
  | some g =>
    rw [htry] at hd
    simp only [Option.map_some'] at hd
    have hkey : ∀ p, occursAt fooLit (pyStrip g) p → (∀ q < p, ¬ createdAt (pyStrip g) q) →
        searchCreated (pyStrip g) = some ("Foo ".data, "2024-01-02".data) := by
      intro p hp hmin
      have hpfx : fooLit <+: (pyStrip g).drop p := List.isPrefixOf_iff_prefix.mp hp
      obtain ⟨b, hb⟩ := hpfx
      have hfl : fooLit = cwLit ++ fooTail := by decide
      have hpre : cwLit.isPrefixOf ((pyStrip g).drop p) = true := by
        apply List.isPrefixOf_iff_prefix.mpr
        exact ⟨fooTail ++ b, by rw [← List.append_assoc, ← hfl, hb]⟩
      have hdrop : (pyStrip g).drop (p + cwLit.length) = fooTail ++ b := by
        rw [← List.drop_drop, ← hb, List.drop_append_of_le_length (by decide)]
        rw [show fooLit.drop cwLit.length = fooTail from by decide]
      have hmt : matchCreatedTail ((pyStrip g).drop (p + cwLit.length))
          = some ("Foo ".data, "2024-01-02".data) := by
        rw [hdrop]
        exact matchCreatedTail_foo b
      exact searchCreated_at (pyStrip g) p _ hpre hmt hmin
    cases hsc : searchCreated (pyStrip g) with
    | some r =>
      rw [hsc] at hd
      obtain rfl := Option.some.inj hd
      constructor
      · rintro ⟨p, hp, hmin⟩
        have hr := hkey p hp hmin
        rw [hr] at hsc
        obtain rfl := Option.some.inj hsc
        constructor
        · show some (pyStrip ("Foo ".data)) = some ("Foo".data)
          decide
        · show some (pyStrip ("2024-01-02".data)) = some ("2024-01-02".data)
          decide
      · intro hall
        have hn := searchCreated_none (pyStrip g) hall
        rw [hn] at hsc
        exact Option.noConfusion hsc
    | none =>
      rw [hsc] at hd
      obtain rfl := Option.some.inj hd
      constructor
      · rintro ⟨p, hp, hmin⟩
        have hr := hkey p hp hmin
        rw [hr] at hsc
        exact Option.noConfusion hsc
      · intro _
        exact ⟨rfl, rfl⟩

/-- Witness for claim C3: on a file whose comment holds exactly the listed mark, the
amended theorem applies and gives created_with Foo and created_date
2024-01-02. -/
theorem claim3_witness :
    extract_doc_comment [] c3good = some c3gooddoc ∧
    c3gooddoc.created_with = some ("Foo".data) ∧
    c3gooddoc.created_date = some ("2024-01-02".data) :=
  ⟨by decide,
   (claim3_created_fields.1 [] c3good c3gooddoc (by decide)).1
     ⟨3, by decide, by decide⟩⟩

/-- Claim C9: a failing read of one visited file is caught per file: that file
yields no record, its path is surfaced as a warning, and the scan result
over all other entries is unchanged, so one unreadable file never aborts
the run. -/
theorem claim9_unreadable_skipped (es1 es2 : List RawEntry) (e : RawEntry)
    (hg : entryGuard pyExts e = true) (hc : e.content = none) :
    gatherDocsFrom (es1 ++ e :: es2) = gatherDocsFrom (es1 ++ es2) ∧
    e.comps ∈ gatherWarnPaths (es1 ++ e :: es2) := by
  constructor
  · unfold gatherDocsFrom
    rw [List.filter_append, List.filter_append, List.filter_cons, if_pos hg]
    rw [List.filterMap_append, List.filterMap_append, List.filterMap_cons]
    rw [show processEntry e = none from by unfold processEntry; rw [hc]]
  · unfold gatherWarnPaths
    rw [List.filter_append, List.filter_cons, if_pos hg]
    rw [List.filterMap_append, List.filterMap_cons, hc]
    exact List.mem_append_right _ (List.mem_cons_self _ _)

/-- Witness for claim C9: a scan over a good file, a broken file, and another good
file drops only the broken record, warns about it, and keeps the rest. -/
theorem claim9_witness :
    entryGuard pyExts badEntry = true ∧ badEntry.content = none ∧
    (gatherDocsFrom ([goodEntry] ++ badEntry :: [goodEntry]) =
      gatherDocsFrom ([goodEntry] ++ [goodEntry]) ∧
     badEntry.comps ∈ gatherWarnPaths ([goodEntry] ++ badEntry :: [goodEntry])) :=
  ⟨by decide, rfl,
   claim9_unreadable_skipped [goodEntry] [goodEntry] badEntry (by decide) rfl⟩

/-- Claim C10: the extension filter is an exact, case-sensitive comparison: an
entry whose suffix differs from an allowed one only in letter case fails
the guard, is not passed to the Extractor, and contributes nothing to the
records or the report. -/
theorem claim10_case_sensitive (es1 es2 : List RawEntry) (e : RawEntry)
    (hf : e.isDir = false)
    (hlow : (pathSuffix e.comps).map Char.toLower ∈ pyExts)
    (hex : pathSuffix e.comps ∉ pyExts) :
    entryGuard pyExts e = false ∧
    e ∉ (es1 ++ e :: es2).filter (entryGuard pyExts) ∧
    gatherDocsFrom (es1 ++ e :: es2) = gatherDocsFrom (es1 ++ es2) ∧
    format_output (gatherDocsFrom (es1 ++ e :: es2)) =
      format_output (gatherDocsFrom (es1 ++ es2)) := by
  have hg : entryGuard pyExts e = false := by
    unfold entryGuard
    rw [hf]
    simp [hex]
  refine ⟨hg, ?_, ?_, ?_⟩
  · intro hmem
    rw [List.mem_filter] at hmem
    rw [hg] at hmem
    exact Bool.noConfusion hmem.2
  · unfold gatherDocsFrom
    rw [List.filter_append, List.filter_append, List.filter_cons, if_neg (by rw [hg]; decide)]
  · unfold gatherDocsFrom
    rw [List.filter_append, List.filter_append, List.filter_cons, if_neg (by rw [hg]; decide)]

/-- Witness for claim C10: a file named x.PY with an extractable comment is excluded
from records and report. -/
theorem claim10_witness :
    upperEntry.isDir = false ∧
    (pathSuffix upperEntry.comps).map Char.toLower ∈ pyExts ∧
    pathSuffix upperEntry.comps ∉ pyExts ∧
    (entryGuard pyExts upperEntry = false ∧
     upperEntry ∉ ([goodEntry] ++ upperEntry :: [goodEntry]).filter (entryGuard pyExts) ∧
     gatherDocsFrom ([goodEntry] ++ upperEntry :: [goodEntry]) =
       gatherDocsFrom ([goodEntry] ++ [goodEntry]) ∧
     format_output (gatherDocsFrom ([goodEntry] ++ upperEntry :: [goodEntry])) =
       format_output (gatherDocsFrom ([goodEntry] ++ [goodEntry]))) :=
  ⟨rfl, by decide, by decide,
   claim10_case_sensitive [goodEntry] [goodEntry] upperEntry rfl (by decide) (by decide)⟩

/-- Claim C8: over a well-formed directory tree and any extension allow list, the
Walker yields exactly the file paths under the tree whose extension lies in
the list, with no duplicates, no directories, each file once. -/
theorem claim8_walker_exact (ts : List FSTree) (E : List Chars) (hwf : WFForest ts) :
    (walkPaths E ts).Nodup ∧
    (∀ e ∈ walkEntries E ts, e.isDir = false) ∧
    (∀ p : List Chars, p ∈ walkPaths E ts ↔
      ((∃ c, ForestEntryAt ts ⟨p, false, c⟩) ∧ pathSuffix p ∈ E)) := by
  refine ⟨?_, ?_, ?_⟩
  · have h1 := forest_nodup ts hwf
    have hsub : List.Sublist
        (((forestEntries ts).filter (entryGuard E)).map RawEntry.comps)
        ((forestEntries ts).map RawEntry.comps) :=
      List.Sublist.map _ (List.filter_sublist _)
    exact h1.sublist hsub
  · intro e he
    unfold walkEntries at he
    rw [List.mem_filter] at he
    have hg := he.2
    unfold entryGuard at hg
    rw [Bool.and_eq_true] at hg
    simpa using hg.1
  · intro p
    constructor
    · intro hp
      unfold walkPaths walkEntries at hp
      rw [List.mem_map] at hp
      obtain ⟨e, he, rfl⟩ := hp
      rw [List.mem_filter] at he
      obtain ⟨hmem, hguard⟩ := he
      obtain ⟨pc, pd, pcontent⟩ := e
      unfold entryGuard at hguard
      rw [Bool.and_eq_true] at hguard
      have hdf : pd = false := by simpa using hguard.1
      subst hdf
      have hsE : pathSuffix pc ∈ E := of_decide_eq_true hguard.2
      exact ⟨⟨pcontent, (mem_forestEntries_iff ts _).mp hmem⟩, hsE⟩
    · rintro ⟨⟨c, hfe⟩, hsE⟩
      have hmem : (⟨p, false, c⟩ : RawEntry) ∈ forestEntries ts :=
        (mem_forestEntries_iff ts _).mpr hfe
      unfold walkPaths walkEntries
      rw [List.mem_map]
      refine ⟨⟨p, false, c⟩, ?_, rfl⟩
      rw [List.mem_filter]
      refine ⟨hmem, ?_⟩
      unfold entryGuard
      simp [hsE]

/-- Witness for claim C8: the walker statement instantiated on a concrete tree with a
nested Python file, a shell file, and a text file. -/
theorem claim8_witness :
    WFForest wforest ∧
    ((walkPaths pyExts wforest).Nodup ∧
     (∀ e ∈ walkEntries pyExts wforest, e.isDir = false) ∧
     (∀ p : List Chars, p ∈ walkPaths pyExts wforest ↔
       ((∃ c, ForestEntryAt wforest ⟨p, false, c⟩) ∧ pathSuffix p ∈ pyExts))) := by
  have hwf : WFForest wforest := by
    constructor
    · decide
    · intro t ht
      simp only [wforest, List.mem_cons, List.not_mem_nil, or_false] at ht
      rcases ht with rfl | rfl | rfl
      · refine WF.dir _ _ (by decide) ?_
        intro t0 ht0
        simp only [List.mem_cons, List.not_mem_nil, or_false] at ht0
        subst ht0
        exact WF.file _ _
      · exact WF.file _ _
      · exact WF.file _ _
  exact ⟨hwf, claim8_walker_exact wforest pyExts hwf⟩

end GatherDocs
